import Mathlib

/-!
A shallow embedding of the session scheduler of the flashcard trainer
in src/WRTS.py, together with proofs about its behaviour.

Modelling conventions:
* Python strings are lists of characters (so positional indexing, length
  and per-character lowercasing are exact).
* Python floats are exact rationals; Python round is round-half-to-even.
* The mutable card dictionaries shared by reference between the queues are
  modelled as a fixed card store with the queues holding indices into it.
* Randomness (the requeue offset random.randint(3, 6) and the joke choice)
  is passed in as an explicit parameter.
* end_session is modelled by a finished flag on the state plus the pure
  scoring and message functions.
-/

namespace Wrts

/-- Python strings, modelled as lists of characters. -/
abbrev Str := List Char

/-- Python list.insert: insert an element at a position, clamped to the end. -/
def pyInsert (xs : List α) (n : Nat) (a : α) : List α :=
  xs.take n ++ a :: xs.drop n

/-- Python str.strip with no argument: drop leading and trailing whitespace. -/
def pyStrip (w : Str) : Str :=
  ((w.dropWhile Char.isWhitespace).reverse.dropWhile Char.isWhitespace).reverse

/-- calculate_mismatch from WRTS.py: lowercase both words, then add the length
difference and the number of positions (up to the length of the shorter word)
at which the words differ. -/
def calculate_mismatch (word1 word2 : Str) : Nat :=
  let w1 := word1.map Char.toLower
  let w2 := word2.map Char.toLower
  let len_diff := Nat.dist w1.length w2.length
  let common_length := min w1.length w2.length
  let char_mismatch := (List.range common_length).countP
    (fun i => w1.getD i ' ' != w2.getD i ' ')
  len_diff + char_mismatch

/-- one card dictionary as built in start_session (the delayed_scheduled field
is present in the source but never read). -/
structure Card where
  source : Str
  target : Str
  delayed_scheduled : Bool
  final_scheduled : Bool
  completed : Bool
  incorrect_count : Nat
deriving DecidableEq

/-- the scheduler-relevant state of the LanguageLearnerApp during a session.
The queues hold indices into cards, mirroring the shared dictionary
references of the Python lists. -/
structure AppState where
  cards : List Card
  queue : List Nat
  final_queue : List Nat
  current_card : Option Nat
  correct_count : Nat
  incorrect_overall : Nat
  finished : Bool
deriving DecidableEq

/-- the completed flag of card i, as the draw step reads it. -/
def completedAt (s : AppState) (i : Nat) : Bool :=
  ((s.cards[i]?).map Card.completed).getD false

/-- the final_scheduled flag of card i. -/
def finalScheduledAt (s : AppState) (i : Nat) : Bool :=
  ((s.cards[i]?).map Card.final_scheduled).getD false

/-- next_card from WRTS.py: pop the head of the main queue, skipping cards
already completed; when the main queue empties, refill it from the final
queue; when both are empty, end_session runs (modelled by the finished
flag). -/
def next_card (s : AppState) : AppState :=
  match hq : s.queue with
  | [] =>
    match hf : s.final_queue with
    | [] => { s with finished := true }
    | _ :: _ => next_card { s with queue := s.final_queue, final_queue := [] }
  | i :: rest =>
    let s1 : AppState := { s with current_card := some i, queue := rest }
    if completedAt s i then next_card s1 else s1
termination_by 2 * (s.queue.length + s.final_queue.length) +
  (if s.final_queue.isEmpty then 0 else 1)
decreasing_by
  all_goals simp_all

/-- schedule_incorrect_card from WRTS.py: always reinsert the card at offset
min(r, len(queue)) where r models the random.randint(3, 6) draw, and append
it to the final queue the first time only (guarded by final_scheduled). -/
def schedule_incorrect_card (r : Nat) (i : Nat) (s : AppState) : AppState :=
  let insert_index := min r s.queue.length
  let s1 : AppState := { s with queue := pyInsert s.queue insert_index i }
  match s1.cards[i]? with
  | none => s1
  | some c =>
    if c.final_scheduled then s1
    else { s1 with cards := s1.cards.set i { c with final_scheduled := true },
                   final_queue := s1.final_queue ++ [i] }

/-- mark_correct from WRTS.py (recall mode): complete the current card and
credit correct_count, both guarded by the previous completed flag, then
draw the next card. -/
def mark_correct (s : AppState) : AppState :=
  next_card <|
    match s.current_card with
    | none => s
    | some i =>
      match s.cards[i]? with
      | none => s
      | some c =>
        if c.completed then s
        else { s with cards := s.cards.set i { c with completed := true },
                      correct_count := s.correct_count + 1 }

/-- mark_incorrect from WRTS.py (recall mode): bump the card's incorrect
count and the overall tally unconditionally, requeue via
schedule_incorrect_card, then draw the next card. -/
def mark_incorrect (r : Nat) (s : AppState) : AppState :=
  next_card <|
    match s.current_card with
    | none => s
    | some i =>
      match s.cards[i]? with
      | none => s
      | some c =>
        schedule_incorrect_card r i
          { s with
              cards := s.cards.set i { c with incorrect_count := c.incorrect_count + 1 },
              incorrect_overall := s.incorrect_overall + 1 }

/-- check_dictee_answer from WRTS.py (typed mode): strip the typed answer,
compare it with the target via calculate_mismatch against the allowed
threshold t; r models the random requeue offset used on an incorrect
answer.  The source schedules next_card 1.2 seconds later through
self.after, so the draw is not part of this function. -/
def check_dictee_answer (typed : Str) (t : Nat) (r : Nat) (s : AppState) : AppState :=
  match s.current_card with
  | none => s
  | some i =>
    match s.cards[i]? with
    | none => s
    | some c =>
      let typed_answer := pyStrip typed
      let mismatch := calculate_mismatch typed_answer c.target
      if mismatch ≤ t then
        { s with cards := s.cards.set i { c with completed := true },
                 correct_count := s.correct_count + 1 }
      else
        schedule_incorrect_card r i
          { s with
              cards := s.cards.set i { c with incorrect_count := c.incorrect_count + 1 },
              incorrect_overall := s.incorrect_overall + 1 }

/-- cards answered correctly at the first try, from end_session. -/
def correct_first_time (cards : List Card) : Nat :=
  cards.countP (fun c => c.incorrect_count == 0)

/-- cards answered incorrectly exactly once, from end_session. -/
def wrong_once (cards : List Card) : Nat :=
  cards.countP (fun c => c.incorrect_count == 1)

/-- the raw (unrounded) final score from end_session, as an exact rational. -/
def raw_score (cards : List Card) : ℚ :=
  if 0 < cards.length then
    ((correct_first_time cards : ℚ) + (wrong_once cards : ℚ) / 5)
      / (cards.length : ℚ) * 100
  else 0

/-- Python round on an exact value: round half to even. -/
def pyRound (q : ℚ) : ℤ :=
  if Int.fract q < 1 / 2 then ⌊q⌋
  else if 1 / 2 < Int.fract q then ⌊q⌋ + 1
  else if ⌊q⌋ % 2 = 0 then ⌊q⌋ else ⌊q⌋ + 1

/-- the final score reported by end_session. -/
def session_score (cards : List Card) : ℤ :=
  pyRound (raw_score cards)

/-- the five jokes end_session picks from when the score is 69. -/
def jokes : List String :=
  [ "Nice! 69 is the best!",
    "Sixty-nine, a fine time!",
    "Keep calm – it’s 69!",
    "69: You’re on fire!",
    "Rock that 69 score!" ]

/-- the feedback message of end_session; j models the random.choice index
used in the score = 69 case. -/
def tier_message (score : ℤ) (j : Fin 5) : String :=
  if score = 69 then jokes.getD j.val "" else
  if score < 10 then "Nevermind bro, maybe its better to do something else" else
  if score < 30 then "Sit tight, this is a heavy sesh. You better dont quit on me now" else
  if score < 50 then "Keep practicing, you\x27ll get better!" else
  if score < 80 then "Good job, keep it up!" else
  if score < 100 then "Excellent work, you\x27re a language master!" else
  "Clean sheet bro, you\x27re a language god!"

/-- create_new_list from WRTS.py: keep the cards answered incorrectly at
least n times, as (source, target) rows.  none models the non-fatal
"No words found" report shown when no card qualifies. -/
def create_new_list (n : Nat) (cards : List Card) : Option (List (Str × Str)) :=
  let filtered_cards := cards.filter (fun c => n ≤ c.incorrect_count)
  if filtered_cards.isEmpty then none
  else some (filtered_cards.map (fun c => (c.source, c.target)))

/-- the scheduler part of start_session; cards is the already shuffled card
list (the shuffle is an external random permutation of the loaded pairs). -/
def init_session (cards : List Card) : AppState :=
  { cards := cards
    queue := List.range cards.length
    final_queue := []
    current_card := none
    correct_count := 0
    incorrect_overall := 0
    finished := false }

/-- one user interaction with the running session.  advance is the deferred
next_card fired 1.2 seconds after a typed answer. -/
inductive Cmd where
  | correct : Cmd
  | incorrect : Nat → Cmd
  | typed : Str → Nat → Cmd
  | advance : Cmd
deriving DecidableEq

/-- the state transformer of one interaction, with t the dictee threshold. -/
def applyCmd (t : Nat) (s : AppState) : Cmd → AppState
  | Cmd.correct => mark_correct s
  | Cmd.incorrect r => mark_incorrect r s
  | Cmd.typed a r => check_dictee_answer a t r s
  | Cmd.advance => next_card s

/-- run the interactions in order; once the session has finished the session
frame has been destroyed, so later interactions do nothing. -/
def run_session (t : Nat) (cmds : List Cmd) (s : AppState) : AppState :=
  cmds.foldl (fun s c => if s.finished then s else applyCmd t s c) s

/-- all queue entries, final-queue entries and the current index point into
the card store (the Python card dictionaries always exist; indices model
the shared references). -/
def idxOK (s : AppState) : Prop :=
  (∀ i ∈ s.queue, i < s.cards.length) ∧
  (∀ i ∈ s.final_queue, i < s.cards.length) ∧
  (∀ i, s.current_card = some i → i < s.cards.length)

/-- each card sits in the final queue at most once, and only once its
final_scheduled flag has been raised. -/
def fqInv (s : AppState) : Prop :=
  ∀ j, (finalScheduledAt s j = false → j ∉ s.final_queue) ∧ s.final_queue.count j ≤ 1

/-- a finished session has both queues empty. -/
def finOK (s : AppState) : Prop :=
  s.finished = true → s.queue = [] ∧ s.final_queue = []

/-- the interaction resolves the currently displayed card as correct. -/
def resolvesCorrect (t : Nat) (s : AppState) : Cmd → Prop
  | Cmd.correct => True
  | Cmd.typed a _ => ∀ i c, s.current_card = some i → s.cards[i]? = some c →
      calculate_mismatch (pyStrip a) c.target ≤ t
  | _ => False

/-- a card as start_session builds it, with a chosen incorrect_count so that
end-of-session situations can be written down directly. -/
def mkCard (src tgt : Str) (inc : Nat) : Card :=
  { source := src, target := tgt, delayed_scheduled := false,
    final_scheduled := false, completed := false, incorrect_count := inc }

/-- five cards: three never missed, one missed once, one missed three times. -/
def demo_cards : List Card :=
  [ mkCard ['a'] ['b'] 0, mkCard ['c'] ['d'] 0, mkCard ['e'] ['f'] 0,
    mkCard ['g'] ['h'] 1, mkCard ['i'] ['j'] 3 ]

/-- five cards with incorrect counts 0, 1, 2, 0, 3. -/
def export_cards : List Card :=
  [ mkCard ['a'] ['b'] 0, mkCard ['c'] ['d'] 1, mkCard ['e'] ['f'] 2,
    mkCard ['g'] ['h'] 0, mkCard ['i'] ['j'] 3 ]

/-- a one-card dictee session with the card on display. -/
def sKat : AppState :=
  { cards := [mkCard "kat".toList "kat".toList 0]
    queue := []
    final_queue := []
    current_card := some 0
    correct_count := 0
    incorrect_overall := 0
    finished := false }

/-- a one-card dictee session whose displayed card has target "kaassoort". -/
def sKaas : AppState :=
  { cards := [mkCard "kaas".toList "kaassoort".toList 0]
    queue := []
    final_queue := []
    current_card := some 0
    correct_count := 0
    incorrect_overall := 0
    finished := false }

/-- a single fresh card, for whole-session demonstrations. -/
def wCards : List Card := [mkCard ['a'] ['b'] 0]

/-- the state right after drawing the first card of a session over wCards. -/
def sSolo : AppState :=
  { cards := wCards
    queue := []
    final_queue := []
    current_card := some 0
    correct_count := 0
    incorrect_overall := 0
    finished := false }

/-- a three-card session, card 0 on display, cards 1 and 2 still queued. -/
def sQueued : AppState :=
  { cards := [mkCard ['a'] ['b'] 0, mkCard ['c'] ['d'] 0, mkCard ['e'] ['f'] 0]
    queue := [1, 2]
    final_queue := []
    current_card := some 0
    correct_count := 0
    incorrect_overall := 0
    finished := false }

/-! ### Helper lemmas about dropWhile and pyStrip -/

theorem dropWhile_dropWhile (p : α → Bool) (l : List α) :
    (l.dropWhile p).dropWhile p = l.dropWhile p := by
  induction l with
  | nil => rfl
  | cons a l ih =>
    cases hpa : p a
    · simp [List.dropWhile_cons, hpa]
    · simp [List.dropWhile_cons, hpa, ih]

theorem exists_append_dropWhile (p : α → Bool) (l : List α) :
    ∃ u, u ++ l.dropWhile p = l := by
  induction l with
  | nil => exact ⟨[], rfl⟩
  | cons a l ih =>
    cases hpa : p a
    · exact ⟨[], by simp [List.dropWhile_cons, hpa]⟩
    · obtain ⟨u, hu⟩ := ih
      exact ⟨a :: u, by simp [List.dropWhile_cons, hpa, hu]⟩

theorem head?_dropWhile_false (p : α → Bool) (l : List α) (x : α)
    (hx : (l.dropWhile p).head? = some x) : p x = false := by
  induction l with
  | nil => simp at hx
  | cons a l ih =>
    rw [List.dropWhile_cons] at hx
    cases hpa : p a
    · rw [hpa] at hx
      simp at hx
      rw [← hx]
      exact hpa
    · rw [hpa] at hx
      simp at hx
      exact ih hx

theorem dropWhile_eq_self_of_head (p : α → Bool) (l : List α)
    (h : ∀ x, l.head? = some x → p x = false) :
    l.dropWhile p = l := by
  cases l with
  | nil => rfl
  | cons a l => rw [List.dropWhile_cons, h a rfl]; simp

theorem head?_append_some (l t : List α) (x : α) (h : l.head? = some x) :
    (l ++ t).head? = some x := by
  cases l with
  | nil => simp at h
  | cons a l => simp_all

theorem pyStrip_idem (w : Str) : pyStrip (pyStrip w) = pyStrip w := by
  have key : List.dropWhile Char.isWhitespace (pyStrip w) = pyStrip w := by
    apply dropWhile_eq_self_of_head
    intro x hx
    obtain ⟨u, hu⟩ :=
      exists_append_dropWhile Char.isWhitespace (w.dropWhile Char.isWhitespace).reverse
    have ha : w.dropWhile Char.isWhitespace = pyStrip w ++ u.reverse := by
      have h1 := congrArg List.reverse hu
      simpa [pyStrip, List.reverse_append] using h1.symm
    have hxa : (w.dropWhile Char.isWhitespace).head? = some x := by
      rw [ha]
      exact head?_append_some _ _ _ hx
    exact head?_dropWhile_false _ _ _ hxa
  have h2 : (pyStrip w).reverse =
      (w.dropWhile Char.isWhitespace).reverse.dropWhile Char.isWhitespace := by
    simp [pyStrip]
  show (((pyStrip w).dropWhile Char.isWhitespace).reverse.dropWhile Char.isWhitespace).reverse
      = pyStrip w
  rw [key, h2, dropWhile_dropWhile, ← h2, List.reverse_reverse]

/-! ### C10 -/

/-- C10: in dictee mode the typed answer is stripped of surrounding
whitespace before grading, so the whole resulting session state for a typed
string equals the one for its stripped form; surrounding whitespace never
affects the outcome. -/
theorem dictee_strip_spec (typed : Str) (t r : Nat) (s : AppState) :
    check_dictee_answer typed t r s = check_dictee_answer (pyStrip typed) t r s := by
  unfold check_dictee_answer
  rw [pyStrip_idem]

/-! ### Helper lemmas about next_card and schedule_incorrect_card -/

theorem next_card_done (s : AppState) (h1 : s.queue = []) (h2 : s.final_queue = []) :
    next_card s = { s with finished := true } := by
  rw [next_card.eq_def]
  split
  · split
    · simp [h1, h2]
    · simp_all
  · simp_all

theorem next_card_refill (s : AppState) (h1 : s.queue = []) (h2 : s.final_queue ≠ []) :
    next_card s = next_card { s with queue := s.final_queue, final_queue := [] } := by
  rw [next_card.eq_def]
  split
  · split
    · simp_all
    · rfl
  · simp_all

theorem next_card_cons (s : AppState) (i : Nat) (rest : List Nat) (h1 : s.queue = i :: rest) :
    next_card s =
      if completedAt s i then next_card { s with current_card := some i, queue := rest }
      else { s with current_card := some i, queue := rest } := by
  rw [next_card.eq_def]
  split
  · simp_all
  · rename_i head tail heq
    have he := h1.symm.trans heq
    injection he with e1 e2
    subst e1
    subst e2
    rfl

theorem next_card_preserv (s : AppState) :
    (next_card s).cards = s.cards ∧
    (next_card s).correct_count = s.correct_count ∧
    (next_card s).incorrect_overall = s.incorrect_overall := by
  induction s using next_card.induct with
  | case1 x h1 h2 => simp [next_card_done x h1 h2]
  | case2 x h1 hd tl h2 ih =>
    rw [next_card_refill x h1 (by simp [h2])]
    simpa using ih
  | case3 x hd tl h1 s1 hc ih =>
    rw [next_card_cons x hd tl h1, if_pos hc]
    simpa using ih
  | case4 x hd tl h1 hc =>
    rw [next_card_cons x hd tl h1, if_neg hc]
    simp

theorem next_card_cards (s : AppState) : (next_card s).cards = s.cards :=
  (next_card_preserv s).1

theorem next_card_correct_count (s : AppState) :
    (next_card s).correct_count = s.correct_count :=
  (next_card_preserv s).2.1

theorem next_card_incorrect_overall (s : AppState) :
    (next_card s).incorrect_overall = s.incorrect_overall :=
  (next_card_preserv s).2.2

theorem completedAt_next_card (s : AppState) (i : Nat) :
    completedAt (next_card s) i = completedAt s i := by
  simp [completedAt, next_card_cards]

theorem finalScheduledAt_next_card (s : AppState) (i : Nat) :
    finalScheduledAt (next_card s) i = finalScheduledAt s i := by
  simp [finalScheduledAt, next_card_cards]

theorem schedule_preserv (r i : Nat) (s : AppState) :
    (schedule_incorrect_card r i s).queue = pyInsert s.queue (min r s.queue.length) i ∧
    (schedule_incorrect_card r i s).current_card = s.current_card ∧
    (schedule_incorrect_card r i s).correct_count = s.correct_count ∧
    (schedule_incorrect_card r i s).incorrect_overall = s.incorrect_overall ∧
    (schedule_incorrect_card r i s).finished = s.finished := by
  unfold schedule_incorrect_card
  cases hc : s.cards[i]? with
  | none => simp [hc]
  | some c => by_cases hf : c.final_scheduled <;> simp [hc, hf]

theorem schedule_queue (r i : Nat) (s : AppState) :
    (schedule_incorrect_card r i s).queue = pyInsert s.queue (min r s.queue.length) i :=
  (schedule_preserv r i s).1

theorem schedule_correct_count (r i : Nat) (s : AppState) :
    (schedule_incorrect_card r i s).correct_count = s.correct_count :=
  (schedule_preserv r i s).2.2.1

theorem schedule_incorrect_overall (r i : Nat) (s : AppState) :
    (schedule_incorrect_card r i s).incorrect_overall = s.incorrect_overall :=
  (schedule_preserv r i s).2.2.2.1

theorem schedule_finished (r i : Nat) (s : AppState) :
    (schedule_incorrect_card r i s).finished = s.finished :=
  (schedule_preserv r i s).2.2.2.2

theorem schedule_none (r i : Nat) (s : AppState) (hc : s.cards[i]? = none) :
    (schedule_incorrect_card r i s).cards = s.cards ∧
    (schedule_incorrect_card r i s).final_queue = s.final_queue := by
  unfold schedule_incorrect_card
  simp [hc]

theorem schedule_flag_true (r i : Nat) (s : AppState) (c : Card)
    (hc : s.cards[i]? = some c) (hf : c.final_scheduled = true) :
    (schedule_incorrect_card r i s).cards = s.cards ∧
    (schedule_incorrect_card r i s).final_queue = s.final_queue := by
  unfold schedule_incorrect_card
  simp [hc, hf]

theorem schedule_flag_false (r i : Nat) (s : AppState) (c : Card)
    (hc : s.cards[i]? = some c) (hf : c.final_scheduled = false) :
    (schedule_incorrect_card r i s).cards = s.cards.set i { c with final_scheduled := true } ∧
    (schedule_incorrect_card r i s).final_queue = s.final_queue ++ [i] := by
  unfold schedule_incorrect_card
  simp [hc, hf]

theorem pyInsert_getElem (xs : List α) (n : Nat) (a : α) (h : n ≤ xs.length) :
    (pyInsert xs n a)[n]? = some a := by
  unfold pyInsert
  rw [List.getElem?_append_right (by rw [List.length_take]; omega)]
  simp [List.length_take, Nat.min_eq_left h]

/-! ### C4 -/

/-- C4: the mismatch score equals the length difference plus the count of
index positions below the shorter length at which the lowercased strings
differ, and a typed answer is graded correct exactly when the mismatch of
the compared strings is at most the allowed threshold; "kaas" against
"kaassoort" has mismatch 5, graded incorrect at threshold 0 and correct at
threshold 5. -/
theorem mismatch_grading_spec (w1 w2 : Str) (t r : Nat) (s : AppState) (i : Nat) (c : Card)
    (h1 : s.current_card = some i) (h2 : s.cards[i]? = some c) :
    calculate_mismatch w1 w2 =
      Nat.dist w1.length w2.length +
        (List.range (min w1.length w2.length)).countP
          (fun k => (w1.map Char.toLower).getD k ' ' != (w2.map Char.toLower).getD k ' ') ∧
    ((check_dictee_answer w1 t r s).correct_count = s.correct_count + 1 ↔
      calculate_mismatch (pyStrip w1) c.target ≤ t) ∧
    calculate_mismatch ("kaas".toList) ("kaassoort".toList) = 5 ∧
    (check_dictee_answer ("kaas".toList) 0 0 sKaas).incorrect_overall = 1 ∧
    (check_dictee_answer ("kaas".toList) 5 0 sKaas).correct_count = 1 := by
  refine ⟨?_, ?_, by decide, by decide, by decide⟩
  · simp [calculate_mismatch, List.length_map]
  · unfold check_dictee_answer
    simp only [h1, h2]
    split
    · rename_i hm
      simp [hm]
    · rename_i hm
      simp only [schedule_correct_count]
      simp [hm]

/-! ### C2 -/

/-- C2 counterexample: in dictee mode the correct-branch increment is not
guarded by the prior value of the completed flag: resolving the same
displayed card correctly twice (two OK clicks within the auto-advance
delay) credits correct_count twice, although the second resolution is a
correct resolution of a card that already transitioned to completed, for
which the claim predicts an increase of 0. -/
theorem dictee_double_credit_cex :
    (check_dictee_answer ("kat".toList) 0 0 sKat).correct_count = 1 ∧
    completedAt (check_dictee_answer ("kat".toList) 0 0 sKat) 0 = true ∧
    (check_dictee_answer ("kat".toList) 0 0
        (check_dictee_answer ("kat".toList) 0 0 sKat)).correct_count = 2 := by
  decide

/-- C2 amended: in recall mode (mark_correct) the credit is guarded by the
prior completed flag, so correct_count rises by exactly 1 on the resolution
that first completes the card and by 0 on a correct resolution of an
already completed card; in typed mode (check_dictee_answer) every correct
resolution raises correct_count by 1 unconditionally. -/
theorem completion_credit_amended (s : AppState) (i : Nat) (c : Card)
    (h1 : s.current_card = some i) (h2 : s.cards[i]? = some c) :
    (c.completed = false →
      (mark_correct s).correct_count = s.correct_count + 1 ∧
      completedAt (mark_correct s) i = true) ∧
    (c.completed = true →
      (mark_correct s).correct_count = s.correct_count ∧
      (mark_correct s).cards = s.cards) ∧
    (∀ a t r, calculate_mismatch (pyStrip a) c.target ≤ t →
      (check_dictee_answer a t r s).correct_count = s.correct_count + 1 ∧
      completedAt (check_dictee_answer a t r s) i = true) := by
  have hlen : i < s.cards.length := (List.getElem?_eq_some_iff.mp h2).1
  refine ⟨?_, ?_, ?_⟩
  · intro hc
    unfold mark_correct
    simp only [h1, h2, hc, Bool.false_eq_true, if_false]
    constructor
    · rw [next_card_correct_count]
    · rw [completedAt_next_card]
      simp [completedAt, List.getElem?_set_self hlen]
  · intro hc
    unfold mark_correct
    simp only [h1, h2, hc, if_true]
    exact ⟨next_card_correct_count s, next_card_cards s⟩
  · intro a t r hm
    unfold check_dictee_answer
    simp only [h1, h2]
    rw [if_pos hm]
    constructor
    · rfl
    · simp [completedAt, List.getElem?_set_self hlen]

/-- witness for completion_credit_amended at a concrete one-card state. -/
theorem completion_credit_amended_witness :
    ((mark_correct sKat).correct_count = sKat.correct_count + 1 ∧
      completedAt (mark_correct sKat) 0 = true) ∧
    (check_dictee_answer ("kat".toList) 0 0 sKat).correct_count = sKat.correct_count + 1 := by
  have h := completion_credit_amended sKat 0 (mkCard "kat".toList "kat".toList 0) rfl rfl
  exact ⟨h.1 rfl, (h.2.2 ("kat".toList) 0 0 (by decide)).1⟩

/-- witness for mismatch_grading_spec at a concrete one-card state. -/
theorem mismatch_grading_spec_witness :
    (sKaas.current_card = some 0) ∧
    ((check_dictee_answer ("kaas".toList) 5 0 sKaas).correct_count = sKaas.correct_count + 1 ↔
      calculate_mismatch (pyStrip ("kaas".toList))
        (mkCard "kaas".toList "kaassoort".toList 0).target ≤ 5) :=
  ⟨rfl, (mismatch_grading_spec ("kaas".toList) ("kaassoort".toList) 5 0 sKaas 0
    (mkCard "kaas".toList "kaassoort".toList 0) rfl rfl).2.1⟩

/-! ### C1 -/

/-- C1: at the transition into the finished state the reported score is the
rounded value of (correct_first_time + wrong_once / 5) / total * 100 when
there are cards and 0 otherwise; for five cards of which three were never
missed, one was missed exactly once and one was missed three times the
score is 64. -/
theorem session_score_spec (cards : List Card) :
    (0 < cards.length →
      session_score cards =
        pyRound (((correct_first_time cards : ℚ) + (wrong_once cards : ℚ) / 5)
          / (cards.length : ℚ) * 100)) ∧
    (cards.length = 0 → session_score cards = 0) ∧
    session_score demo_cards = 64 ∧
    correct_first_time demo_cards = 3 ∧ wrong_once demo_cards = 1 ∧
    demo_cards.length = 5 := by
  refine ⟨?_, ?_, ?_, by decide, by decide, by decide⟩
  · intro h
    simp [session_score, raw_score, h]
  · intro h
    simp only [session_score, raw_score, h]
    norm_num [pyRound]
  · have h1 : correct_first_time demo_cards = 3 := by decide
    have h2 : wrong_once demo_cards = 1 := by decide
    have h3 : demo_cards.length = 5 := by decide
    have h4 : raw_score demo_cards = 64 := by
      rw [raw_score, if_pos (by decide), h1, h2, h3]
      norm_num
    rw [session_score, h4]
    norm_num [pyRound]

/-- witness for session_score_spec on the five demo cards. -/
theorem session_score_spec_witness :
    0 < demo_cards.length ∧
    session_score demo_cards =
      pyRound (((correct_first_time demo_cards : ℚ) + (wrong_once demo_cards : ℚ) / 5)
        / (demo_cards.length : ℚ) * 100) :=
  ⟨by decide, (session_score_spec demo_cards).1 (by decide)⟩

/-! ### C7 -/

/-- C7 counterexample: in the concrete case scoring 64 the message shown is
the <80 bucket text "Good job, keep it up!"; it is not the string
"Keep practicing, you\x27ll get better!", which the code attaches to the
<50 bucket instead (here witnessed at score 40). -/
theorem tier_message_64_cex :
    tier_message 64 0 = "Good job, keep it up!" ∧
    tier_message 64 0 ≠ "Keep practicing, you\x27ll get better!" ∧
    tier_message 40 0 = "Keep practicing, you\x27ll get better!" := by
  decide

/-- C7 amended: the feedback message is chosen by the score ranges <10, <30,
<50, <80, <100 and =100, except that a score of exactly 69 draws one of five
fixed joke strings; in the concrete case scoring 64 the message is
"Good job, keep it up!", the <80 bucket text (the "Keep practicing" text
belongs to the <50 bucket). -/
theorem tier_message_amended (score : ℤ) (j : Fin 5) :
    (score = 69 → tier_message score j ∈ jokes) ∧
    (score ≠ 69 →
      (score < 10 →
        tier_message score j = "Nevermind bro, maybe its better to do something else") ∧
      (10 ≤ score → score < 30 →
        tier_message score j = "Sit tight, this is a heavy sesh. You better dont quit on me now") ∧
      (30 ≤ score → score < 50 →
        tier_message score j = "Keep practicing, you\x27ll get better!") ∧
      (50 ≤ score → score < 80 →
        tier_message score j = "Good job, keep it up!") ∧
      (80 ≤ score → score < 100 →
        tier_message score j = "Excellent work, you\x27re a language master!") ∧
      (100 ≤ score →
        tier_message score j = "Clean sheet bro, you\x27re a language god!")) ∧
    tier_message 64 j = "Good job, keep it up!" := by
  refine ⟨?_, ?_, ?_⟩
  · intro h
    subst h
    simp only [tier_message, if_pos rfl]
    fin_cases j <;> decide
  · intro hne
    unfold tier_message
    rw [if_neg hne]
    refine ⟨?_, ?_, ?_, ?_, ?_, ?_⟩
    · intro h1
      rw [if_pos h1]
    · intro h1 h2
      rw [if_neg (by omega), if_pos h2]
    · intro h1 h2
      rw [if_neg (by omega), if_neg (by omega), if_pos h2]
    · intro h1 h2
      rw [if_neg (by omega), if_neg (by omega), if_neg (by omega), if_pos h2]
    · intro h1 h2
      rw [if_neg (by omega), if_neg (by omega), if_neg (by omega), if_neg (by omega),
        if_pos h2]
    · intro h1
      rw [if_neg (by omega), if_neg (by omega), if_neg (by omega), if_neg (by omega),
        if_neg (by omega)]
  · unfold tier_message
    norm_num

/-- witness for tier_message_amended at the scores 69, 5 and 64. -/
theorem tier_message_amended_witness :
    tier_message 69 0 ∈ jokes ∧
    tier_message 5 0 = "Nevermind bro, maybe its better to do something else" ∧
    tier_message 64 0 = "Good job, keep it up!" :=
  ⟨(tier_message_amended 69 0).1 rfl,
   ((tier_message_amended 5 0).2.1 (by decide)).1 (by decide),
   (tier_message_amended 64 0).2.2⟩

/-! ### C9 -/

/-- C9: for a threshold n of at least 1 the export returns none (the
reported empty-result signal) exactly when no card was missed n times, and
otherwise exactly the cards with incorrect_count at least n, each with its
original source/target pairing; for counts 0, 1, 2, 0, 3 and n = 2 it
returns exactly the two cards with counts 2 and 3. -/
theorem create_new_list_spec (n : Nat) (cards : List Card) (hn : 1 ≤ n) :
    (create_new_list n cards = none ↔ ∀ c ∈ cards, c.incorrect_count < n) ∧
    (∀ l, create_new_list n cards = some l →
      l = (cards.filter (fun c => n ≤ c.incorrect_count)).map
        (fun c => (c.source, c.target))) ∧
    create_new_list 2 export_cards = some [(['e'], ['f']), (['i'], ['j'])] := by
  refine ⟨?_, ?_, by decide⟩
  · simp only [create_new_list]
    split
    · rename_i h
      simp only [List.isEmpty_iff, List.filter_eq_nil_iff, decide_eq_true_eq] at h
      simp only [true_iff]
      intro c hc
      have := h c hc
      omega
    · rename_i h
      simp only [List.isEmpty_iff] at h
      obtain ⟨c, hc⟩ := List.exists_mem_of_ne_nil _ h
      have hmem := List.mem_filter.mp hc
      simp only [decide_eq_true_eq] at hmem
      constructor
      · intro hcontra
        exact absurd hcontra (by simp)
      · intro hall
        exact absurd (hall c hmem.1) (not_lt.mpr hmem.2)
  · intro l hl
    simp only [create_new_list] at hl
    split at hl
    · exact absurd hl (by simp)
    · exact (Option.some.inj hl).symm

/-- witness for create_new_list_spec at n = 2 on the export demo cards. -/
theorem create_new_list_spec_witness :
    1 ≤ 2 ∧
    (create_new_list 2 export_cards = none ↔
      ∀ c ∈ export_cards, c.incorrect_count < 2) :=
  ⟨by decide, (create_new_list_spec 2 export_cards (by decide)).1⟩

/-! ### C3 -/

theorem getElem?_map_set (l : List Card) (i j : Nat) (c c' : Card) (f : Card → β)
    (hc : l[i]? = some c) (hf : f c' = f c) :
    ((l.set i c')[j]?).map f = (l[j]?).map f := by
  have hlen := (List.getElem?_eq_some_iff.mp hc).1
  by_cases hij : i = j
  · subst hij
    simp [List.getElem?_set_self hlen, hc, hf]
  · simp [List.getElem?_set_ne hij]

theorem schedule_incorrect_count_at (r i j : Nat) (s : AppState) :
    ((schedule_incorrect_card r i s).cards[j]?).map Card.incorrect_count =
      (s.cards[j]?).map Card.incorrect_count := by
  cases hc : s.cards[i]? with
  | none => rw [(schedule_none r i s hc).1]
  | some c =>
    by_cases hf : c.final_scheduled
    · rw [(schedule_flag_true r i s c hc hf).1]
    · rw [(schedule_flag_false r i s c hc (by simpa using hf)).1]
      exact getElem?_map_set s.cards i j c _ Card.incorrect_count hc rfl

theorem completedAt_schedule (r i : Nat) (s : AppState) (j : Nat) :
    completedAt (schedule_incorrect_card r i s) j = completedAt s j := by
  unfold completedAt
  cases hc : s.cards[i]? with
  | none => rw [(schedule_none r i s hc).1]
  | some c =>
    by_cases hf : c.final_scheduled
    · rw [(schedule_flag_true r i s c hc hf).1]
    · rw [(schedule_flag_false r i s c hc (by simpa using hf)).1]
      rw [getElem?_map_set s.cards i j c { c with final_scheduled := true }
        Card.completed hc rfl]

/-- C3: an incorrect resolution increments the card's incorrect_count and
the session's incorrect_overall by exactly one, unconditionally, in both
modes, and the requeue step inserts the card at position min(r, len) of the
main queue, a position within [min(3,len), min(6,len)] of the head for the
random offset r in [3,6], len being the queue length at insertion time. -/
theorem incorrect_resolution_spec (s : AppState) (i r : Nat) (c : Card)
    (h1 : s.current_card = some i) (h2 : s.cards[i]? = some c)
    (hr3 : 3 ≤ r) (hr6 : r ≤ 6) :
    ((mark_incorrect r s).cards[i]?).map Card.incorrect_count =
      some (c.incorrect_count + 1) ∧
    (mark_incorrect r s).incorrect_overall = s.incorrect_overall + 1 ∧
    (∀ a t, t < calculate_mismatch (pyStrip a) c.target →
      ((check_dictee_answer a t r s).cards[i]?).map Card.incorrect_count =
        some (c.incorrect_count + 1) ∧
      (check_dictee_answer a t r s).incorrect_overall = s.incorrect_overall + 1) ∧
    ((schedule_incorrect_card r i s).queue)[min r s.queue.length]? = some i ∧
    min 3 s.queue.length ≤ min r s.queue.length ∧
    min r s.queue.length ≤ min 6 s.queue.length := by
  have hlen : i < s.cards.length := (List.getElem?_eq_some_iff.mp h2).1
  have hset : (s.cards.set i { c with incorrect_count := c.incorrect_count + 1 })[i]?
      = some { c with incorrect_count := c.incorrect_count + 1 } :=
    List.getElem?_set_self hlen
  refine ⟨?_, ?_, ?_, ?_, by omega, by omega⟩
  · unfold mark_incorrect
    simp only [h1, h2]
    rw [next_card_cards, schedule_incorrect_count_at]
    simp [hset]
  · unfold mark_incorrect
    simp only [h1, h2]
    rw [next_card_incorrect_overall, schedule_incorrect_overall]
  · intro a t hm
    unfold check_dictee_answer
    simp only [h1, h2]
    rw [if_neg (by omega)]
    constructor
    · rw [schedule_incorrect_count_at]
      simp [hset]
    · rw [schedule_incorrect_overall]
  · rw [schedule_queue]
    exact pyInsert_getElem _ _ _ (Nat.min_le_right r s.queue.length)

/-- witness for incorrect_resolution_spec on a three-card state. -/
theorem incorrect_resolution_spec_witness :
    (3 ≤ 3 ∧ (3 : Nat) ≤ 6) ∧
    ((mark_incorrect 3 sQueued).cards[0]?).map Card.incorrect_count = some 1 ∧
    ((schedule_incorrect_card 3 0 sQueued).queue)[min 3 sQueued.queue.length]? = some 0 := by
  have h := incorrect_resolution_spec sQueued 0 3 (mkCard ['a'] ['b'] 0) rfl rfl
    (by decide) (by decide)
  exact ⟨⟨by decide, by decide⟩, h.1, h.2.2.2.1⟩

/-! ### C6 -/

/-- C6: the draw step never presents a completed card: whenever next_card
leaves the session unfinished, the card it made current has a completed
flag reading false — stale queue entries of completed cards are popped and
discarded by the draw loop. -/
theorem draw_skips_completed (s : AppState) (i : Nat)
    (hfin : (next_card s).finished = false)
    (hcur : (next_card s).current_card = some i) :
    completedAt (next_card s) i = false := by
  rw [completedAt_next_card]
  revert hfin hcur
  induction s using next_card.induct with
  | case1 x h1 h2 =>
    intro hfin hcur
    rw [next_card_done x h1 h2] at hfin
    simp at hfin
  | case2 x h1 hd tl h2 ih =>
    intro hfin hcur
    rw [next_card_refill x h1 (by simp [h2])] at hfin hcur
    have := ih hfin hcur
    simpa [completedAt] using this
  | case3 x hd tl h1 s1 hc ih =>
    intro hfin hcur
    rw [next_card_cons x hd tl h1, if_pos hc] at hfin hcur
    have := ih hfin hcur
    simpa [completedAt] using this
  | case4 x hd tl h1 hc =>
    intro hfin hcur
    rw [next_card_cons x hd tl h1, if_neg hc] at hcur
    simp at hcur
    rw [← hcur]
    simpa using hc

/-- evaluation of the first draw over the one-card list. -/
theorem next_card_init_wCards : next_card (init_session wCards) = sSolo := by
  rw [next_card_cons (init_session wCards) 0 [] (by decide), if_neg (by decide)]
  decide

/-- witness for draw_skips_completed after the first draw of a session. -/
theorem draw_skips_completed_witness :
    (next_card (init_session wCards)).finished = false ∧
    completedAt (next_card (init_session wCards)) 0 = false :=
  ⟨by rw [next_card_init_wCards]; decide,
   draw_skips_completed (init_session wCards) 0
     (by rw [next_card_init_wCards]; decide)
     (by rw [next_card_init_wCards]; decide)⟩

/-! ### C5 -/

theorem fqInv_of_eq (s s' : AppState) (hc : s'.cards = s.cards)
    (hf : s'.final_queue = s.final_queue) (h : fqInv s) : fqInv s' := by
  intro j
  have e : finalScheduledAt s' j = finalScheduledAt s j := by
    unfold finalScheduledAt
    rw [hc]
  rw [e, hf]
  exact h j

theorem fqInv_set_state (s s' : AppState) (i : Nat) (c c' : Card)
    (hc : s.cards[i]? = some c) (hflag : c'.final_scheduled = c.final_scheduled)
    (hcards : s'.cards = s.cards.set i c') (hfq : s'.final_queue = s.final_queue)
    (h : fqInv s) : fqInv s' := by
  intro j
  have e : finalScheduledAt s' j = finalScheduledAt s j := by
    unfold finalScheduledAt
    rw [hcards, getElem?_map_set s.cards i j c c' Card.final_scheduled hc hflag]
  rw [e, hfq]
  exact h j

theorem next_card_fqInv (s : AppState) (h : fqInv s) : fqInv (next_card s) := by
  revert h
  induction s using next_card.induct with
  | case1 x h1 h2 =>
    intro h
    rw [next_card_done x h1 h2]
    exact fqInv_of_eq x _ rfl rfl h
  | case2 x h1 hd tl h2 ih =>
    intro h
    rw [next_card_refill x h1 (by simp [h2])]
    apply ih
    intro j
    exact ⟨fun _ => by simp, by simp⟩
  | case3 x hd tl h1 s1 hc ih =>
    intro h
    rw [next_card_cons x hd tl h1, if_pos hc]
    apply ih
    exact fqInv_of_eq x _ rfl rfl h
  | case4 x hd tl h1 hc =>
    intro h
    rw [next_card_cons x hd tl h1, if_neg hc]
    exact fqInv_of_eq x _ rfl rfl h

theorem schedule_fqInv (r i : Nat) (s : AppState) (h : fqInv s) :
    fqInv (schedule_incorrect_card r i s) := by
  cases hc : s.cards[i]? with
  | none =>
    have hp := schedule_none r i s hc
    exact fqInv_of_eq s _ hp.1 hp.2 h
  | some c =>
    by_cases hfl : c.final_scheduled
    · have hp := schedule_flag_true r i s c hc hfl
      exact fqInv_of_eq s _ hp.1 hp.2 h
    · have hfl' : c.final_scheduled = false := by simpa using hfl
      have hp := schedule_flag_false r i s c hc hfl'
      have hlen := (List.getElem?_eq_some_iff.mp hc).1
      intro j
      have hflagj : finalScheduledAt (schedule_incorrect_card r i s) j =
          (if i = j then true else finalScheduledAt s j) := by
        unfold finalScheduledAt
        rw [hp.1]
        by_cases hij : i = j
        · subst hij
          simp [List.getElem?_set_self hlen]
        · simp [List.getElem?_set_ne hij, hij]
      rw [hp.2, hflagj]
      by_cases hij : i = j
      · subst hij
        rw [if_pos rfl]
        constructor
        · intro hcontra
          exact absurd hcontra (by simp)
        · have hnot : i ∉ s.final_queue := (h i).1 (by
            unfold finalScheduledAt
            rw [hc]
            simpa using hfl')
          rw [List.count_append]
          simp [List.count_eq_zero.mpr hnot]
      · rw [if_neg hij]
        constructor
        · intro hflag hmem
          rcases List.mem_append.mp hmem with hm | hm
          · exact (h j).1 hflag hm
          · simp at hm
            exact hij hm.symm
        · rw [List.count_append]
          have h1 : List.count j [i] = 0 := by
            simp [List.count_cons, Ne.symm hij]
          rw [h1]
          simpa using (h j).2

theorem mark_correct_fqInv (s : AppState) (h : fqInv s) : fqInv (mark_correct s) := by
  unfold mark_correct
  apply next_card_fqInv
  cases hcur : s.current_card with
  | none => exact h
  | some i =>
    dsimp only
    cases hc : s.cards[i]? with
    | none => exact h
    | some c =>
      dsimp only
      by_cases hcomp : c.completed
      · rw [if_pos hcomp]
        exact h
      · rw [if_neg hcomp]
        exact fqInv_set_state s _ i c { c with completed := true } hc rfl rfl rfl h

theorem mark_incorrect_fqInv (r : Nat) (s : AppState) (h : fqInv s) :
    fqInv (mark_incorrect r s) := by
  unfold mark_incorrect
  apply next_card_fqInv
  cases hcur : s.current_card with
  | none => exact h
  | some i =>
    dsimp only
    cases hc : s.cards[i]? with
    | none => exact h
    | some c =>
      dsimp only
      apply schedule_fqInv
      exact fqInv_set_state s _ i c { c with incorrect_count := c.incorrect_count + 1 }
        hc rfl rfl rfl h

theorem check_dictee_fqInv (a : Str) (t r : Nat) (s : AppState) (h : fqInv s) :
    fqInv (check_dictee_answer a t r s) := by
  unfold check_dictee_answer
  cases hcur : s.current_card with
  | none => exact h
  | some i =>
    dsimp only
    cases hc : s.cards[i]? with
    | none => exact h
    | some c =>
      dsimp only
      by_cases hm : calculate_mismatch (pyStrip a) c.target ≤ t
      · rw [if_pos hm]
        exact fqInv_set_state s _ i c { c with completed := true } hc rfl rfl rfl h
      · rw [if_neg hm]
        apply schedule_fqInv
        exact fqInv_set_state s _ i c { c with incorrect_count := c.incorrect_count + 1 }
          hc rfl rfl rfl h

theorem applyCmd_fqInv (t : Nat) (s : AppState) (cmd : Cmd) (h : fqInv s) :
    fqInv (applyCmd t s cmd) := by
  cases cmd with
  | advance => exact next_card_fqInv s h
  | correct => exact mark_correct_fqInv s h
  | incorrect r => exact mark_incorrect_fqInv r s h
  | typed a r => exact check_dictee_fqInv a t r s h

theorem run_session_preserves (t : Nat) (P : AppState → Prop)
    (hP : ∀ s cmd, P s → P (applyCmd t s cmd)) :
    ∀ (cmds : List Cmd) (s : AppState), P s → P (run_session t cmds s) := by
  intro cmds
  induction cmds with
  | nil => exact fun s h => h
  | cons c cmds ih =>
    intro s h
    simp only [run_session, List.foldl_cons]
    refine ih _ ?_
    by_cases hf : s.finished
    · rw [if_pos hf]
      exact h
    · rw [if_neg hf]
      exact hP s c h

theorem finalScheduledAt_schedule_mono (r i : Nat) (s : AppState) (j : Nat)
    (h : finalScheduledAt s j = true) :
    finalScheduledAt (schedule_incorrect_card r i s) j = true := by
  cases hc : s.cards[i]? with
  | none =>
    unfold finalScheduledAt at h ⊢
    rw [(schedule_none r i s hc).1]
    exact h
  | some c =>
    by_cases hfl : c.final_scheduled
    · unfold finalScheduledAt at h ⊢
      rw [(schedule_flag_true r i s c hc hfl).1]
      exact h
    · have hfl' : c.final_scheduled = false := by simpa using hfl
      have hlen := (List.getElem?_eq_some_iff.mp hc).1
      unfold finalScheduledAt at h ⊢
      rw [(schedule_flag_false r i s c hc hfl').1]
      by_cases hij : i = j
      · subst hij
        simp [List.getElem?_set_self hlen]
      · rw [List.getElem?_set_ne hij]
        exact h

theorem applyCmd_flag_mono (t : Nat) (s : AppState) (cmd : Cmd) (j : Nat)
    (h : finalScheduledAt s j = true) :
    finalScheduledAt (applyCmd t s cmd) j = true := by
  cases cmd with
  | advance =>
    show finalScheduledAt (next_card s) j = true
    rw [finalScheduledAt_next_card]
    exact h
  | correct =>
    show finalScheduledAt (mark_correct s) j = true
    unfold mark_correct
    rw [finalScheduledAt_next_card]
    cases hcur : s.current_card with
    | none => exact h
    | some i =>
      dsimp only
      cases hc : s.cards[i]? with
      | none => exact h
      | some c =>
        dsimp only
        by_cases hcomp : c.completed
        · rw [if_pos hcomp]
          exact h
        · rw [if_neg hcomp]
          unfold finalScheduledAt at h ⊢
          dsimp only
          rw [getElem?_map_set s.cards i j c { c with completed := true }
            Card.final_scheduled hc rfl]
          exact h
  | incorrect r =>
    show finalScheduledAt (mark_incorrect r s) j = true
    unfold mark_incorrect
    rw [finalScheduledAt_next_card]
    cases hcur : s.current_card with
    | none => exact h
    | some i =>
      dsimp only
      cases hc : s.cards[i]? with
      | none => exact h
      | some c =>
        dsimp only
        apply finalScheduledAt_schedule_mono
        unfold finalScheduledAt at h ⊢
        dsimp only
        rw [getElem?_map_set s.cards i j c { c with incorrect_count := c.incorrect_count + 1 }
          Card.final_scheduled hc rfl]
        exact h
  | typed a r =>
    show finalScheduledAt (check_dictee_answer a t r s) j = true
    unfold check_dictee_answer
    cases hcur : s.current_card with
    | none => exact h
    | some i =>
      dsimp only
      cases hc : s.cards[i]? with
      | none => exact h
      | some c =>
        dsimp only
        by_cases hm : calculate_mismatch (pyStrip a) c.target ≤ t
        · rw [if_pos hm]
          unfold finalScheduledAt at h ⊢
          dsimp only
          rw [getElem?_map_set s.cards i j c { c with completed := true }
            Card.final_scheduled hc rfl]
          exact h
        · rw [if_neg hm]
          apply finalScheduledAt_schedule_mono
          unfold finalScheduledAt at h ⊢
          dsimp only
          rw [getElem?_map_set s.cards i j c { c with incorrect_count := c.incorrect_count + 1 }
            Card.final_scheduled hc rfl]
          exact h

/-- C5: final-queue idempotence: over any run of a session each card index
occurs at most once in final_queue; schedule_incorrect_card appends the
card exactly when its final_scheduled flag is still false, raising the flag
at that append, and no interaction ever resets a raised flag. -/
theorem final_queue_once_spec (cards : List Card) (t : Nat) (cmds : List Cmd) (j : Nat) :
    (run_session t cmds (next_card (init_session cards))).final_queue.count j ≤ 1 ∧
    (∀ s r i c, s.cards[i]? = some c →
      (c.final_scheduled = true →
        (schedule_incorrect_card r i s).final_queue = s.final_queue) ∧
      (c.final_scheduled = false →
        (schedule_incorrect_card r i s).final_queue = s.final_queue ++ [i] ∧
        finalScheduledAt (schedule_incorrect_card r i s) i = true)) ∧
    (∀ s cmd, finalScheduledAt s j = true →
      finalScheduledAt (applyCmd t s cmd) j = true) := by
  refine ⟨?_, ?_, ?_⟩
  · have h0 : fqInv (init_session cards) := by
      intro j'
      exact ⟨fun _ => by simp [init_session], by simp [init_session]⟩
    have h1 := next_card_fqInv _ h0
    have h2 := run_session_preserves t fqInv (fun s cmd h => applyCmd_fqInv t s cmd h) cmds _ h1
    exact (h2 j).2
  · intro s r i c hc
    refine ⟨fun hf => (schedule_flag_true r i s c hc hf).2,
      fun hf => ⟨(schedule_flag_false r i s c hc hf).2, ?_⟩⟩
    have hlen := (List.getElem?_eq_some_iff.mp hc).1
    unfold finalScheduledAt
    rw [(schedule_flag_false r i s c hc hf).1]
    simp [List.getElem?_set_self hlen]
  · intro s cmd h
    exact applyCmd_flag_mono t s cmd j h

/-- witness for final_queue_once_spec on a one-card session and a concrete
schedule call. -/
theorem final_queue_once_spec_witness :
    (run_session 0 [Cmd.incorrect 3] (next_card (init_session wCards))).final_queue.count 0 ≤ 1 ∧
    (schedule_incorrect_card 3 0 sKat).final_queue = sKat.final_queue ++ [0] := by
  have h := final_queue_once_spec wCards 0 [Cmd.incorrect 3] 0
  exact ⟨h.1, (((final_queue_once_spec wCards 0 [] 0).2.1 sKat 3 0
    (mkCard "kat".toList "kat".toList 0) rfl).2 rfl).1⟩

/-! ### C8 -/

theorem mem_pyInsert (xs : List α) (n : Nat) (a b : α) (h : b ∈ pyInsert xs n a) :
    b = a ∨ b ∈ xs := by
  unfold pyInsert at h
  rcases List.mem_append.mp h with h1 | h1
  · exact Or.inr (List.mem_of_mem_take h1)
  · rcases List.mem_cons.mp h1 with h2 | h2
    · exact Or.inl h2
    · exact Or.inr (List.mem_of_mem_drop h2)

theorem completedAt_set (s s' : AppState) (i j : Nat) (c c' : Card)
    (hc : s.cards[i]? = some c) (hcards : s'.cards = s.cards.set i c') :
    completedAt s' j = if i = j then c'.completed else completedAt s j := by
  have hlen := (List.getElem?_eq_some_iff.mp hc).1
  unfold completedAt
  rw [hcards]
  by_cases hij : i = j
  · subst hij
    simp [List.getElem?_set_self hlen]
  · simp [List.getElem?_set_ne hij, hij]

theorem completedAt_set_mono (s s' : AppState) (i j : Nat) (c c' : Card)
    (hc : s.cards[i]? = some c) (hcards : s'.cards = s.cards.set i c')
    (hmono : c.completed = true → c'.completed = true)
    (h : completedAt s j = true) : completedAt s' j = true := by
  rw [completedAt_set s s' i j c c' hc hcards]
  by_cases hij : i = j
  · subst hij
    rw [if_pos rfl]
    apply hmono
    unfold completedAt at h
    rw [hc] at h
    simpa using h
  · rw [if_neg hij]
    exact h

theorem applyCmd_completed_mono (t : Nat) (s : AppState) (cmd : Cmd) (j : Nat)
    (h : completedAt s j = true) : completedAt (applyCmd t s cmd) j = true := by
  cases cmd with
  | advance =>
    show completedAt (next_card s) j = true
    rw [completedAt_next_card]
    exact h
  | correct =>
    show completedAt (mark_correct s) j = true
    unfold mark_correct
    rw [completedAt_next_card]
    cases hcur : s.current_card with
    | none => exact h
    | some i =>
      dsimp only
      cases hc : s.cards[i]? with
      | none => exact h
      | some c =>
        dsimp only
        by_cases hcomp : c.completed
        · rw [if_pos hcomp]
          exact h
        · rw [if_neg hcomp]
          exact completedAt_set_mono s _ i j c { c with completed := true } hc rfl
            (fun _ => rfl) h
  | incorrect r =>
    show completedAt (mark_incorrect r s) j = true
    unfold mark_incorrect
    rw [completedAt_next_card]
    cases hcur : s.current_card with
    | none => exact h
    | some i =>
      dsimp only
      cases hc : s.cards[i]? with
      | none => exact h
      | some c =>
        dsimp only
        rw [completedAt_schedule]
        exact completedAt_set_mono s _ i j c { c with incorrect_count := c.incorrect_count + 1 }
          hc rfl (fun x => x) h
  | typed a r =>
    show completedAt (check_dictee_answer a t r s) j = true
    unfold check_dictee_answer
    cases hcur : s.current_card with
    | none => exact h
    | some i =>
      dsimp only
      cases hc : s.cards[i]? with
      | none => exact h
      | some c =>
        dsimp only
        by_cases hm : calculate_mismatch (pyStrip a) c.target ≤ t
        · rw [if_pos hm]
          exact completedAt_set_mono s _ i j c { c with completed := true } hc rfl
            (fun _ => rfl) h
        · rw [if_neg hm]
          rw [completedAt_schedule]
          exact completedAt_set_mono s _ i j c { c with incorrect_count := c.incorrect_count + 1 }
            hc rfl (fun x => x) h

theorem applyCmd_completes (t : Nat) (s : AppState) (j : Nat) (c : Card) (cmd : Cmd)
    (hcur : s.current_card = some j) (hc : s.cards[j]? = some c)
    (hres : resolvesCorrect t s cmd) :
    completedAt (applyCmd t s cmd) j = true := by
  cases cmd with
  | incorrect r => exact absurd hres (by simp [resolvesCorrect])
  | advance => exact absurd hres (by simp [resolvesCorrect])
  | correct =>
    show completedAt (mark_correct s) j = true
    unfold mark_correct
    rw [completedAt_next_card]
    simp only [hcur, hc]
    by_cases hcomp : c.completed
    · rw [if_pos hcomp]
      unfold completedAt
      rw [hc]
      simpa using hcomp
    · rw [if_neg hcomp]
      rw [completedAt_set s _ j j c { c with completed := true } hc rfl]
      simp
  | typed a r =>
    have hm := hres j c hcur hc
    show completedAt (check_dictee_answer a t r s) j = true
    unfold check_dictee_answer
    simp only [hcur, hc]
    rw [if_pos hm]
    rw [completedAt_set s _ j j c { c with completed := true } hc rfl]
    simp

theorem schedule_cards_length (r i : Nat) (s : AppState) :
    (schedule_incorrect_card r i s).cards.length = s.cards.length := by
  cases hc : s.cards[i]? with
  | none => rw [(schedule_none r i s hc).1]
  | some c =>
    by_cases hfl : c.final_scheduled
    · rw [(schedule_flag_true r i s c hc hfl).1]
    · rw [(schedule_flag_false r i s c hc (by simpa using hfl)).1, List.length_set]

theorem applyCmd_cards_length (t : Nat) (s : AppState) (cmd : Cmd) :
    (applyCmd t s cmd).cards.length = s.cards.length := by
  cases cmd with
  | advance =>
    show (next_card s).cards.length = s.cards.length
    rw [next_card_cards]
  | correct =>
    show (mark_correct s).cards.length = s.cards.length
    unfold mark_correct
    rw [next_card_cards]
    cases hcur : s.current_card with
    | none => rfl
    | some i =>
      dsimp only
      cases hc : s.cards[i]? with
      | none => rfl
      | some c =>
        dsimp only
        by_cases hcomp : c.completed
        · rw [if_pos hcomp]
        · rw [if_neg hcomp]
          exact List.length_set s.cards i _
  | incorrect r =>
    show (mark_incorrect r s).cards.length = s.cards.length
    unfold mark_incorrect
    rw [next_card_cards]
    cases hcur : s.current_card with
    | none => rfl
    | some i =>
      dsimp only
      cases hc : s.cards[i]? with
      | none => rfl
      | some c =>
        dsimp only
        rw [schedule_cards_length]
        exact List.length_set s.cards i _
  | typed a r =>
    show (check_dictee_answer a t r s).cards.length = s.cards.length
    unfold check_dictee_answer
    cases hcur : s.current_card with
    | none => rfl
    | some i =>
      dsimp only
      cases hc : s.cards[i]? with
      | none => rfl
      | some c =>
        dsimp only
        by_cases hm : calculate_mismatch (pyStrip a) c.target ≤ t
        · rw [if_pos hm]
          exact List.length_set s.cards i _
        · rw [if_neg hm]
          rw [schedule_cards_length]
          exact List.length_set s.cards i _

theorem next_card_idxOK (s : AppState) (h : idxOK s) : idxOK (next_card s) := by
  revert h
  induction s using next_card.induct with
  | case1 x h1 h2 =>
    intro h
    rw [next_card_done x h1 h2]
    exact h
  | case2 x h1 hd tl h2 ih =>
    intro h
    rw [next_card_refill x h1 (by simp [h2])]
    apply ih
    exact ⟨h.2.1, by simp, h.2.2⟩
  | case3 x hd tl h1 s1 hc ih =>
    intro h
    rw [next_card_cons x hd tl h1, if_pos hc]
    apply ih
    refine ⟨fun i hi => h.1 i ?_, h.2.1, fun i hi => h.1 i ?_⟩
    · rw [h1]
      exact List.mem_cons_of_mem _ hi
    · have : i = hd := by simpa using hi.symm
      rw [this, h1]
      exact List.mem_cons_self _ _
  | case4 x hd tl h1 hc =>
    intro h
    rw [next_card_cons x hd tl h1, if_neg hc]
    refine ⟨fun i hi => h.1 i ?_, h.2.1, fun i hi => h.1 i ?_⟩
    · rw [h1]
      exact List.mem_cons_of_mem _ hi
    · have : i = hd := by simpa using hi.symm
      rw [this, h1]
      exact List.mem_cons_self _ _

theorem schedule_idxOK (r i : Nat) (s : AppState) (hi : i < s.cards.length)
    (h : idxOK s) : idxOK (schedule_incorrect_card r i s) := by
  have hlen := schedule_cards_length r i s
  have hq := schedule_queue r i s
  have hcur := (schedule_preserv r i s).2.1
  have hfq : (schedule_incorrect_card r i s).final_queue = s.final_queue ∨
      (schedule_incorrect_card r i s).final_queue = s.final_queue ++ [i] := by
    cases hc : s.cards[i]? with
    | none => exact Or.inl (schedule_none r i s hc).2
    | some c =>
      by_cases hfl : c.final_scheduled
      · exact Or.inl (schedule_flag_true r i s c hc hfl).2
      · exact Or.inr (schedule_flag_false r i s c hc (by simpa using hfl)).2
  refine ⟨?_, ?_, ?_⟩
  · intro x hx
    rw [hlen]
    rw [hq] at hx
    rcases mem_pyInsert _ _ _ _ hx with hx1 | hx1
    · rw [hx1]
      exact hi
    · exact h.1 x hx1
  · intro x hx
    rw [hlen]
    rcases hfq with he | he <;> rw [he] at hx
    · exact h.2.1 x hx
    · rcases List.mem_append.mp hx with h1 | h1
      · exact h.2.1 x h1
      · simp at h1
        rw [h1]
        exact hi
  · intro x hx
    rw [hlen]
    rw [hcur] at hx
    exact h.2.2 x hx

theorem applyCmd_idxOK (t : Nat) (s : AppState) (cmd : Cmd) (h : idxOK s) :
    idxOK (applyCmd t s cmd) := by
  cases cmd with
  | advance => exact next_card_idxOK s h
  | correct =>
    show idxOK (mark_correct s)
    unfold mark_correct
    apply next_card_idxOK
    cases hcur : s.current_card with
    | none => exact h
    | some i =>
      dsimp only
      cases hc : s.cards[i]? with
      | none => exact h
      | some c =>
        dsimp only
        by_cases hcomp : c.completed
        · rw [if_pos hcomp]
          exact h
        · rw [if_neg hcomp]
          exact ⟨fun x hx => by simpa [List.length_set] using h.1 x hx,
            fun x hx => by simpa [List.length_set] using h.2.1 x hx,
            fun x hx => by
              have hxi : x = i := by
                have hx2 : some i = some x := hx
                simpa using hx2.symm
              subst hxi
              simpa [List.length_set] using h.2.2 x hcur⟩
  | incorrect r =>
    show idxOK (mark_incorrect r s)
    unfold mark_incorrect
    apply next_card_idxOK
    cases hcur : s.current_card with
    | none => exact h
    | some i =>
      dsimp only
      cases hc : s.cards[i]? with
      | none => exact h
      | some c =>
        dsimp only
        apply schedule_idxOK
        · simpa [List.length_set] using h.2.2 i hcur
        · exact ⟨fun x hx => by simpa [List.length_set] using h.1 x hx,
            fun x hx => by simpa [List.length_set] using h.2.1 x hx,
            fun x hx => by
              have hxi : x = i := by
                have hx2 : some i = some x := hx
                simpa using hx2.symm
              subst hxi
              simpa [List.length_set] using h.2.2 x hcur⟩
  | typed a r =>
    show idxOK (check_dictee_answer a t r s)
    unfold check_dictee_answer
    cases hcur : s.current_card with
    | none => exact h
    | some i =>
      dsimp only
      cases hc : s.cards[i]? with
      | none => exact h
      | some c =>
        dsimp only
        by_cases hm : calculate_mismatch (pyStrip a) c.target ≤ t
        · rw [if_pos hm]
          exact ⟨fun x hx => by simpa [List.length_set] using h.1 x hx,
            fun x hx => by simpa [List.length_set] using h.2.1 x hx,
            fun x hx => by
              have hxi : x = i := by
                have hx2 : some i = some x := hx
                simpa using hx2.symm
              subst hxi
              simpa [List.length_set] using h.2.2 x hcur⟩
        · rw [if_neg hm]
          apply schedule_idxOK
          · simpa [List.length_set] using h.2.2 i hcur
          · exact ⟨fun x hx => by simpa [List.length_set] using h.1 x hx,
              fun x hx => by simpa [List.length_set] using h.2.1 x hx,
              fun x hx => by
              have hxi : x = i := by
                have hx2 : some i = some x := hx
                simpa using hx2.symm
              subst hxi
              simpa [List.length_set] using h.2.2 x hcur⟩

theorem init_idxOK (cards : List Card) : idxOK (init_session cards) := by
  refine ⟨?_, ?_, ?_⟩
  · intro i hi
    have : i ∈ List.range cards.length := hi
    exact List.mem_range.mp this
  · intro i hi
    simp [init_session] at hi
  · intro i hi
    simp [init_session] at hi

theorem next_card_finishes (s : AppState)
    (hq : ∀ i ∈ s.queue, completedAt s i = true)
    (hf : ∀ i ∈ s.final_queue, completedAt s i = true) :
    (next_card s).finished = true ∧ (next_card s).queue = [] ∧
      (next_card s).final_queue = [] := by
  revert hq hf
  induction s using next_card.induct with
  | case1 x h1 h2 =>
    intro hq hf
    rw [next_card_done x h1 h2]
    exact ⟨rfl, h1, h2⟩
  | case2 x h1 hd tl h2 ih =>
    intro hq hf
    rw [next_card_refill x h1 (by simp [h2])]
    exact ih (fun i hi => hf i hi) (by simp)
  | case3 x hd tl h1 s1 hc ih =>
    intro hq hf
    rw [next_card_cons x hd tl h1, if_pos hc]
    refine ih (fun i hi => ?_) (fun i hi => hf i hi)
    exact hq i (by rw [h1]; exact List.mem_cons_of_mem _ hi)
  | case4 x hd tl h1 hc =>
    intro hq hf
    exact absurd (hq hd (by rw [h1]; exact List.mem_cons_self _ _)) hc

theorem run_session_append (t : Nat) (l1 l2 : List Cmd) (s : AppState) :
    run_session t (l1 ++ l2) s = run_session t l2 (run_session t l1 s) := by
  simp [run_session, List.foldl_append]

theorem run_session_take_succ (t : Nat) (cmds : List Cmd) (k : Nat) (cmd : Cmd)
    (s : AppState) (hk : cmds[k]? = some cmd) :
    run_session t (cmds.take (k + 1)) s =
      (if (run_session t (cmds.take k) s).finished then run_session t (cmds.take k) s
       else applyCmd t (run_session t (cmds.take k) s) cmd) := by
  rw [List.take_succ, hk, run_session_append]
  rfl

/-- C8: termination: for a finite non-empty card set and a finite sequence
of interactions in which every card is at some point the displayed card of
an unfinished state and is resolved correct there, the session reaches the
finished state with both queues drained once the pending draw runs. -/
theorem session_termination (cards : List Card) (t : Nat) (cmds : List Cmd)
    (hne : cards ≠ [])
    (hres : ∀ j, j < cards.length → ∃ k cmd, cmds[k]? = some cmd ∧
      (run_session t (cmds.take k) (next_card (init_session cards))).finished = false ∧
      (run_session t (cmds.take k) (next_card (init_session cards))).current_card = some j ∧
      resolvesCorrect t (run_session t (cmds.take k) (next_card (init_session cards))) cmd) :
    (next_card (run_session t cmds (next_card (init_session cards)))).finished = true ∧
    (next_card (run_session t cmds (next_card (init_session cards)))).queue = [] ∧
    (next_card (run_session t cmds (next_card (init_session cards)))).final_queue = [] := by
  set s0 := next_card (init_session cards) with hs0
  have hlen0 : s0.cards.length = cards.length := by
    rw [hs0, next_card_cards]
    rfl
  have hidx0 : idxOK s0 := next_card_idxOK _ (init_idxOK cards)
  have hlenrun : ∀ l, (run_session t l s0).cards.length = cards.length :=
    fun l => run_session_preserves t (fun s => s.cards.length = cards.length)
      (fun s cmd h => by
        show (applyCmd t s cmd).cards.length = cards.length
        rw [applyCmd_cards_length]
        exact h) l s0 hlen0
  have hidxrun : ∀ l, idxOK (run_session t l s0) :=
    fun l => run_session_preserves t idxOK
      (fun s cmd h => applyCmd_idxOK t s cmd h) l s0 hidx0
  have hcomp : ∀ j, j < cards.length → completedAt (run_session t cmds s0) j = true := by
    intro j hj
    obtain ⟨k, cmd, hk, hfin, hcur, hrc⟩ := hres j hj
    have hjlen : j < (run_session t (cmds.take k) s0).cards.length := by
      rw [hlenrun]
      exact hj
    obtain ⟨c, hc⟩ : ∃ c, (run_session t (cmds.take k) s0).cards[j]? = some c :=
      ⟨_, List.getElem?_eq_getElem hjlen⟩
    have hstep : completedAt (applyCmd t (run_session t (cmds.take k) s0) cmd) j = true :=
      applyCmd_completes t _ j c cmd hcur hc hrc
    have hsucc : run_session t (cmds.take (k + 1)) s0 =
        applyCmd t (run_session t (cmds.take k) s0) cmd := by
      rw [run_session_take_succ t cmds k cmd s0 hk, if_neg (by simp [hfin])]
    have hdecomp : run_session t cmds s0 =
        run_session t (cmds.drop (k + 1)) (run_session t (cmds.take (k + 1)) s0) := by
      rw [← run_session_append, List.take_append_drop]
    rw [hdecomp, hsucc]
    exact run_session_preserves t (fun s => completedAt s j = true)
      (fun s cmd' h => applyCmd_completed_mono t s cmd' j h) _ _ hstep
  have hfinal := hidxrun cmds
  apply next_card_finishes
  · intro i hi
    refine hcomp i ?_
    rw [← hlenrun cmds]
    exact hfinal.1 i hi
  · intro i hi
    refine hcomp i ?_
    rw [← hlenrun cmds]
    exact hfinal.2.1 i hi

/-- witness for session_termination: a one-card session resolved correct in
one interaction finishes. -/
theorem session_termination_witness :
    wCards ≠ [] ∧
    (next_card (run_session 0 [Cmd.correct] (next_card (init_session wCards)))).finished
      = true := by
  refine ⟨by decide, ?_⟩
  refine (session_termination wCards 0 [Cmd.correct] (by decide) ?_).1
  intro j hj
  have hlen : wCards.length = 1 := by decide
  have hj0 : j = 0 := by omega
  subst hj0
  refine ⟨0, Cmd.correct, rfl, ?_, ?_, trivial⟩
  · show (next_card (init_session wCards)).finished = false
    rw [next_card_init_wCards]
    rfl
  · show (next_card (init_session wCards)).current_card = some 0
    rw [next_card_init_wCards]
    rfl

end Wrts
